import Mathlib

/-!
# Coretx — verified model of the core specification

A shallow embedding of the Coretx code-context engine: the entity/relationship
graph model, the Graph Store mutations (`upsert_file`, `remove_file`,
`neighbors`), the export/import document, the hybrid retrieval fusion, the
closure assembler, and the `AuthManager`/`ContextResult` records that appear
verbatim in the repository documentation.  Scores are rationals, machine
dictionaries are association lists, and every operation is an executable
function.  Theorems at the end of the file settle the specification claims.
-/

namespace Coretx

/-! ## Data model -/

/-- Modelled from the spec: `CodeEntity` — unique id, kind (open tagged set),
file path, start/end position, optional signature text, optional descriptive
text, optional embedding vector, opaque metadata map.  The implementation
module `coretx/models.py` is not part of the provided sources; the record
follows the spec's field list (section 3 and `docs/API.md`). -/
structure CodeEntity where
  id : String
  kind : String
  path : String
  startLine : Nat
  endLine : Nat
  signature : Option String
  descText : Option String
  embedding : Option (List Rat)
  metadata : List (String × String)
deriving DecidableEq, Repr

/-- Modelled from the spec: `Relationship` — unique id, source entity id,
target entity id, kind, optional confidence weight, opaque metadata
(section 3 and `docs/API.md`). -/
structure Relationship where
  id : String
  source : String
  target : String
  kind : String
  weight : Option Rat
  metadata : List (String × String)
deriving DecidableEq, Repr

/-- Modelled from the spec: the Graph Store owns entities and relationships;
each element is attributed to one `FileScope` (the owning source file), the
unit of incremental update and deletion.  Ownership is recorded by pairing
every stored element with its owning scope id. -/
structure GraphStore where
  entities : List (String × CodeEntity)
  relationships : List (String × Relationship)
deriving DecidableEq, Repr

/-- The empty Graph Store (explicitly constructed, per the lifecycle rules). -/
def emptyStore : GraphStore := { entities := [], relationships := [] }

/-- All entity ids present in the store. -/
def entityIds (g : GraphStore) : List String :=
  g.entities.map (fun p => p.2.id)

/-- Does the store contain an entity with this id? -/
def hasEntity (g : GraphStore) (i : String) : Bool :=
  (entityIds g).contains i

/-- All relationship ids present in the store. -/
def relationshipIds (g : GraphStore) : List String :=
  g.relationships.map (fun p => p.2.id)

/-! ## Graph Store mutations -/

/-- Modelled from the spec: `upsert_file(scope_id, entities, relationships)`
atomically replaces all data owned by `scope_id`; rejects (with
`DanglingReferenceRejected`, failing the whole call) relationships whose
endpoints are absent from the combined entity set of this call (the new
entities together with the surviving entities of other scopes); cross-file
relationships are re-resolved, so a surviving relationship whose endpoint
was removed by the replacement is dropped rather than left dangling. -/
def upsert_file (g : GraphStore) (scope : String)
    (es : List CodeEntity) (rs : List Relationship) :
    Except String GraphStore :=
  let keptEntities := g.entities.filter (fun p => p.1 != scope)
  let combinedIds := keptEntities.map (fun p => p.2.id) ++ es.map CodeEntity.id
  if rs.all (fun r => combinedIds.contains r.source && combinedIds.contains r.target) then
    let keptRels := g.relationships.filter (fun p =>
      p.1 != scope && combinedIds.contains p.2.source && combinedIds.contains p.2.target)
    Except.ok
      { entities := keptEntities ++ es.map (fun e => (scope, e)),
        relationships := keptRels ++ rs.map (fun r => (scope, r)) }
  else
    Except.error "DanglingReferenceRejected"

/-- Modelled from the spec: `remove_file(scope_id)` deletes the owned
entities and all incident relationships (both directions), never leaving
dangling edges. -/
def remove_file (g : GraphStore) (scope : String) : GraphStore :=
  let keptEntities := g.entities.filter (fun p => p.1 != scope)
  let keptIds := keptEntities.map (fun p => p.2.id)
  { entities := keptEntities,
    relationships := g.relationships.filter (fun p =>
      p.1 != scope && keptIds.contains p.2.source && keptIds.contains p.2.target) }

/-- The entities owned by a scope, in insertion order. -/
def ownedEntities (g : GraphStore) (scope : String) : List CodeEntity :=
  (g.entities.filter (fun p => p.1 == scope)).map (fun p => p.2)

/-- The relationships owned by a scope, in insertion order. -/
def ownedRelationships (g : GraphStore) (scope : String) : List Relationship :=
  (g.relationships.filter (fun p => p.1 == scope)).map (fun p => p.2)

/-- The standing no-dangling-edges invariant: every stored relationship's
source and target ids are present as entities. -/
def noDangling (g : GraphStore) : Bool :=
  g.relationships.all (fun p => hasEntity g p.2.source && hasEntity g p.2.target)

/-- A Graph Store mutation, as issued by a caller. -/
inductive GraphOp where
  | upsert (scope : String) (es : List CodeEntity) (rs : List Relationship)
  | remove (scope : String)

/-- Apply one mutation; a rejected `upsert_file` leaves the store exactly
as it was (`upsert_file` is all-or-nothing per call). -/
def applyOp (g : GraphStore) (op : GraphOp) : GraphStore :=
  match op with
  | .upsert scope es rs =>
    match upsert_file g scope es rs with
    | .ok g' => g'
    | .error _ => g
  | .remove scope => remove_file g scope

/-- Apply a sequence of mutations to the freshly constructed store. -/
def applyOps (ops : List GraphOp) : GraphStore :=
  ops.foldl applyOp emptyStore

/-- The combined entity set of an `upsert_file` call: the argument entities
together with the surviving entities of other scopes; the call succeeds
exactly when every argument relationship's endpoints are present in it. -/
def endpointsPresent (g : GraphStore) (scope : String)
    (es : List CodeEntity) (rs : List Relationship) : Bool :=
  let keptEntities := g.entities.filter (fun p => p.1 != scope)
  let combinedIds := keptEntities.map (fun p => p.2.id) ++ es.map CodeEntity.id
  rs.all (fun r => combinedIds.contains r.source && combinedIds.contains r.target)

/-- Whether an `upsert_file` call is rejected. -/
def upsertRejected (g : GraphStore) (scope : String)
    (es : List CodeEntity) (rs : List Relationship) : Bool :=
  match upsert_file g scope es rs with
  | .ok _ => false
  | .error _ => true

/-! ## Breadth-first traversal (`neighbors`) -/

/-- Traversal direction for `neighbors` and `trace`. -/
inductive Direction where
  | outgoing
  | incoming
  | both
deriving DecidableEq, Repr

/-- Does a relationship's kind match the requested kinds (an empty request
matches every kind)? -/
def kindMatches (kinds : List String) (r : Relationship) : Bool :=
  kinds.isEmpty || kinds.contains r.kind

/-- The ids a single relationship contributes when traversed from `i` in
the given direction. -/
def dirStep (dir : Direction) (i : String) (r : Relationship) : List String :=
  match dir with
  | .outgoing => if r.source == i then [r.target] else []
  | .incoming => if r.target == i then [r.source] else []
  | .both =>
      (if r.source == i then [r.target] else [])
        ++ (if r.target == i then [r.source] else [])

/-- One-hop neighbor ids of `i`, scanning the relationship list in
insertion order (this scan order is what breaks ties at equal depth). -/
def scanRels (kinds : List String) (dir : Direction) (i : String) :
    List (String × Relationship) → List String
  | [] => []
  | p :: ps =>
      (if kindMatches kinds p.2 then dirStep dir i p.2 else [])
        ++ scanRels kinds dir i ps

/-- One-hop neighbor ids of every frontier entity, frontier order first,
relationship insertion order within one entity. -/
def levelStep (g : GraphStore) (kinds : List String) (dir : Direction) :
    List String → List String
  | [] => []
  | x :: xs => scanRels kinds dir x g.relationships ++ levelStep g kinds dir xs

/-- Keep the first occurrence of each id not already visited (the
visited-set dedup required because of cycles). -/
def freshOnly (visited : List String) : List String → List String
  | [] => []
  | x :: xs =>
      if visited.contains x then freshOnly visited xs
      else x :: freshOnly (x :: visited) xs

/-- The breadth-first worker: one recursive call per depth level; `depth`
is the level being emitted, entities already visited are never emitted
again. -/
def bfsGo (g : GraphStore) (kinds : List String) (dir : Direction) :
    Nat → List String → List String → Nat → List (String × Nat)
  | 0, _, _, _ => []
  | d + 1, frontier, visited, depth =>
      let next := freshOnly visited (levelStep g kinds dir frontier)
      next.map (fun n => (n, depth))
        ++ bfsGo g kinds dir d next (next ++ visited) (depth + 1)

/-- Modelled from the spec: `neighbors(id, kinds, direction, max_depth)` —
breadth-first traversal with visited-set dedup, returning the reached
entity ids paired with the depth at which each was first reached, in
non-decreasing depth order, ties at equal depth broken by relationship
insertion order. -/
def neighbors (g : GraphStore) (i : String) (kinds : List String)
    (dir : Direction) (maxDepth : Nat) : List (String × Nat) :=
  bfsGo g kinds dir maxDepth [i] [i] 1

/-! ## Export / import -/

/-- Modelled from the spec: a node of the export document carries
(id, kind, path, span, metadata). -/
structure GraphNode where
  id : String
  kind : String
  path : String
  spanStart : Nat
  spanEnd : Nat
  metadata : List (String × String)
deriving DecidableEq, Repr

/-- Modelled from the spec: an edge of the export document carries
(id, source, target, kind, weight). -/
structure GraphEdge where
  id : String
  source : String
  target : String
  kind : String
  weight : Option Rat
deriving DecidableEq, Repr

/-- Modelled from the spec: the export document — a `schema_version`, a
`nodes` list, an `edges` list, and index metadata (embedding
dimensionality). -/
structure GraphDoc where
  schema_version : Nat
  nodes : List GraphNode
  edges : List GraphEdge
  embeddingDim : Option Nat
deriving DecidableEq, Repr

/-- Modelled from the spec: `export()` serializes the graph into the
document, node by node and edge by edge in store order. -/
def exportGraph (g : GraphStore) (dim : Option Nat) : GraphDoc :=
  { schema_version := 1,
    nodes := g.entities.map (fun p =>
      { id := p.2.id, kind := p.2.kind, path := p.2.path,
        spanStart := p.2.startLine, spanEnd := p.2.endLine,
        metadata := p.2.metadata }),
    edges := g.relationships.map (fun p =>
      { id := p.2.id, source := p.2.source, target := p.2.target,
        kind := p.2.kind, weight := p.2.weight }),
    embeddingDim := dim }

/-- Modelled from the spec: `import()` reconstructs the graph from the
document; a node's owning scope is its file path, and fields the document
does not carry (signature, descriptive text, embedding, edge metadata)
come back empty. -/
def importGraph (d : GraphDoc) : GraphStore :=
  { entities := d.nodes.map (fun n =>
      (n.path,
        { id := n.id, kind := n.kind, path := n.path,
          startLine := n.spanStart, endLine := n.spanEnd,
          signature := none, descText := none, embedding := none,
          metadata := n.metadata })),
    relationships := d.edges.map (fun e =>
      (""  ,
        { id := e.id, source := e.source, target := e.target,
          kind := e.kind, weight := e.weight, metadata := [] })) }

/-! ## Closure Assembler -/

/-- An entity's size in budget units: its line span, always at least 1
(the spec lets the budget count total text length or entity count; the
model uses the line span of the entity). -/
def entitySize (e : CodeEntity) : Nat := e.endLine - e.startLine + 1

/-- Size of the entity with the given id in the store (1 for an unknown
id, so every included element costs at least one budget unit). -/
def sizeIn (g : GraphStore) (i : String) : Nat :=
  match g.entities.find? (fun p => p.2.id == i) with
  | some p => entitySize p.2
  | none => 1

/-- The largest entity size in the store (at least 1). -/
def maxEntSize (g : GraphStore) : Nat :=
  (g.entities.map (fun p => entitySize p.2)).foldr max 1

/-- A frontier/result element of the assembler: entity id, decayed score,
depth from its seed. -/
structure FrontierEntry where
  id : String
  score : Rat
  depth : Nat
deriving DecidableEq, Repr

/-- Assembler state during EXPANDING: the result set, the unexpanded
frontier, the already-expanded ids, the pop count, and whether the fuel
parameter (an artifact of the embedding, not of the algorithm) ran out. -/
structure AsmState where
  included : List FrontierEntry
  frontier : List FrontierEntry
  expanded : List String
  pops : Nat
  fuelOut : Bool
deriving DecidableEq, Repr

/-- Pop the highest-scoring frontier entry (earliest on ties). -/
def popBest : List FrontierEntry → Option (FrontierEntry × List FrontierEntry)
  | [] => none
  | x :: xs =>
      match popBest xs with
      | none => some (x, [])
      | some (b, rest) =>
          if b.score > x.score then some (b, x :: rest) else some (x, xs)

/-- Pop the lowest-scoring frontier entry (earliest on ties). -/
def popWorst : List FrontierEntry → Option (FrontierEntry × List FrontierEntry)
  | [] => none
  | x :: xs =>
      match popWorst xs with
      | none => some (x, [])
      | some (b, rest) =>
          if b.score < x.score then some (b, x :: rest) else some (x, xs)

/-- Total size of a result set. -/
def includedSize (g : GraphStore) (l : List FrontierEntry) : Nat :=
  (l.map (fun e => sizeIn g e.id)).sum

/-- Modelled from the spec: the EXPANDING loop — repeatedly pop the
highest-scoring unexpanded frontier entity, fetch its graph neighbors
(bounded by `maxDepth`), add previously-unseen neighbors to the result set
with a decayed score, and stop when the frontier is empty or the budget is
exhausted.  An entity is expanded at most once (cycle-safety guard); the
fuel argument makes the recursion structural and is proved sufficient
below. -/
def expandLoop (g : GraphStore) (decay : Rat) (maxDepth budget : Nat) :
    Nat → AsmState → AsmState
  | 0, st => { st with fuelOut := true }
  | fuel + 1, st =>
      if budget ≤ includedSize g st.included then st
      else
        match popBest st.frontier with
        | none => st
        | some (e, rest) =>
            if st.expanded.contains e.id then
              expandLoop g decay maxDepth budget fuel
                { st with frontier := rest, pops := st.pops + 1 }
            else
              let nbrs :=
                if e.depth < maxDepth
                then scanRels [] Direction.both e.id g.relationships
                else []
              let fresh :=
                freshOnly (st.included.map FrontierEntry.id) nbrs
              expandLoop g decay maxDepth budget fuel
                { included := st.included
                    ++ fresh.map (fun n => ⟨n, e.score * decay, e.depth + 1⟩),
                  frontier := rest
                    ++ fresh.map (fun n => ⟨n, e.score * decay, e.depth + 1⟩),
                  expanded := st.expanded ++ [e.id],
                  pops := st.pops + 1,
                  fuelOut := st.fuelOut }

/-- Modelled from the spec: PRUNING — while the total included size
exceeds the budget, remove the lowest-decayed-score entity and mark the
result truncated.  (The sole-resolver coherence protection ultimately
yields to the budget and is not load-bearing for any tracked claim; the
model removes lowest scores first.) -/
def pruneLoop (g : GraphStore) (budget : Nat) :
    Nat → List FrontierEntry → List FrontierEntry × Bool
  | 0, l => (l, false)
  | fuel + 1, l =>
      if includedSize g l ≤ budget then (l, false)
      else
        match popWorst l with
        | none => (l, false)
        | some (_, rest) => ((pruneLoop g budget fuel rest).1, true)

/-- SEEDING: the retriever's ranked candidates become the initial
frontier, deduplicated by id (first occurrence wins), each tagged with its
originating score at depth 0. -/
def dedupSeeds (seen : List String) :
    List (String × Rat) → List FrontierEntry
  | [] => []
  | (i, s) :: cs =>
      if seen.contains i then dedupSeeds seen cs
      else ⟨i, s, 0⟩ :: dedupSeeds (i :: seen) cs

/-- The induced relationship subset: relationships whose both endpoints
lie in the final entity set. -/
def inducedRels (g : GraphStore) (ids : List String) : List Relationship :=
  (g.relationships.filter (fun p =>
    ids.contains p.2.source && ids.contains p.2.target)).map (fun p => p.2)

/-- The FINALIZED result of the Closure Assembler. -/
structure ClosureResult where
  members : List FrontierEntry
  relationships : List Relationship
  truncated : Bool
  oversized_seed : Bool
  confidence : Rat
  totalScore : Rat
deriving DecidableEq, Repr

/-- The empty result emitted when SEEDING receives zero candidates:
`confidence = 0`. -/
def emptyClosure : ClosureResult :=
  { members := [], relationships := [], truncated := false,
    oversized_seed := false, confidence := 0, totalScore := 0 }

/-- The initial EXPANDING state for a seed list. -/
def asmInit (seeds : List FrontierEntry) : AsmState :=
  { included := seeds, frontier := seeds, expanded := [], pops := 0,
    fuelOut := false }

/-- The fuel budget for the EXPANDING loop: one more than the step bound
proved for it (seed size + budget + 2 · edge count · largest entity). -/
def asmFuel (g : GraphStore) (budget : Nat)
    (seeds : List FrontierEntry) : Nat :=
  includedSize g seeds + budget
    + 2 * g.relationships.length * maxEntSize g + 1

/-- Run the EXPANDING phase on a seed list with its proven-sufficient
fuel. -/
def runExpanding (g : GraphStore) (decay : Rat) (maxDepth budget : Nat)
    (seeds : List FrontierEntry) : AsmState :=
  expandLoop g decay maxDepth budget (asmFuel g budget seeds)
    (asmInit seeds)

/-- Modelled from the spec: the Closure Assembler,
`SEEDING → EXPANDING → PRUNING → FINALIZED`.  Zero candidates yield the
empty result with confidence 0; a budget smaller than the top seed's size
returns that one seed with truncated content, flagged `oversized_seed`. -/
def assemble (g : GraphStore) (candidates : List (String × Rat))
    (budget maxDepth : Nat) (decay : Rat) : ClosureResult :=
  match dedupSeeds [] candidates with
  | [] => emptyClosure
  | s :: ss =>
      match popBest (s :: ss) with
      | none => emptyClosure
      | some (top, _) =>
          if budget < sizeIn g top.id then
            { members := [top], relationships := inducedRels g [top.id],
              truncated := true, oversized_seed := true,
              confidence := top.score, totalScore := top.score }
          else
            let stF := runExpanding g decay maxDepth budget (s :: ss)
            let pruned := pruneLoop g budget stF.included.length stF.included
            { members := pruned.1,
              relationships :=
                inducedRels g (pruned.1.map FrontierEntry.id),
              truncated := pruned.2,
              oversized_seed := false,
              confidence := 1,
              totalScore := (pruned.1.map FrontierEntry.score).sum }

/-! ## Hybrid Retriever -/

/-- A retrieval candidate carrying its raw per-signal sub-scores: the
shared over-fetched pool that both the Lexical and Semantic searches
score. -/
structure Candidate where
  id : String
  lex : Rat
  sem : Rat
deriving DecidableEq, Repr

/-- Minimum of a list of scores (0 for the empty list). -/
def listMin : List Rat → Rat
  | [] => 0
  | [x] => x
  | x :: y :: xs => min x (listMin (y :: xs))

/-- Maximum of a list of scores (0 for the empty list). -/
def listMax : List Rat → Rat
  | [] => 0
  | [x] => x
  | x :: y :: xs => max x (listMax (y :: xs))

/-- Modelled from the spec: min–max normalization of a raw score into
[0,1] within its own result set; a constant signal normalizes to 1. -/
def normScore (lo hi s : Rat) : Rat :=
  if hi = lo then 1 else (s - lo) / (hi - lo)

/-- The lexical signal's raw scores over the pool. -/
def lexScores (cs : List Candidate) : List Rat := cs.map Candidate.lex

/-- The semantic signal's raw scores over the pool. -/
def semScores (cs : List Candidate) : List Rat := cs.map Candidate.sem

/-- A candidate's normalized lexical score within the pool. -/
def lexNorm (cs : List Candidate) (c : Candidate) : Rat :=
  normScore (listMin (lexScores cs)) (listMax (lexScores cs)) c.lex

/-- A candidate's normalized semantic score within the pool. -/
def semNorm (cs : List Candidate) (c : Candidate) : Rat :=
  normScore (listMin (semScores cs)) (listMax (semScores cs)) c.sem

/-- Modelled from the spec: the configurable weighted sum of the two
normalized signals (default equal weight). -/
def combinedScore (wl ws : Rat) (cs : List Candidate) (c : Candidate) :
    Rat :=
  wl * lexNorm cs c + ws * semNorm cs c

/-- Does `a` rank strictly ahead of `b` in the fused output (larger
combined score, ties broken by id)? -/
def beats (wl ws : Rat) (cs : List Candidate) (a b : Candidate) : Bool :=
  decide (combinedScore wl ws cs b < combinedScore wl ws cs a)
    || (decide (combinedScore wl ws cs a = combinedScore wl ws cs b)
        && decide (a.id < b.id))

/-- A candidate's rank position: how many pool candidates rank strictly
ahead of it (0 = top). -/
def rankPos (wl ws : Rat) (cs : List Candidate) (c : Candidate) : Nat :=
  cs.countP (fun a => beats wl ws cs a c)

/-- Raise (or keep) the lexical sub-score of the entity `i`. -/
def bumpLex (cs : List Candidate) (i : String) (newLex : Rat) :
    List Candidate :=
  cs.map (fun c => if c.id = i then { c with lex := newLex } else c)

/-- Raise (or keep) the semantic sub-score of the entity `i`. -/
def bumpSem (cs : List Candidate) (i : String) (newSem : Rat) :
    List Candidate :=
  cs.map (fun c => if c.id = i then { c with sem := newSem } else c)

/-- Swap the two signal fields of a candidate (used to transport facts
about the lexical signal to the semantic one). -/
def swapCand (c : Candidate) : Candidate := ⟨c.id, c.sem, c.lex⟩

/-- A fused output entry: entity id with its combined score. -/
structure ScoredCand where
  id : String
  score : Rat
deriving DecidableEq, Repr

/-- Deduplicate-by-id insertion keeping the maximum combined score on
collision. -/
def insertMax (c : ScoredCand) : List ScoredCand → List ScoredCand
  | [] => [c]
  | d :: ds =>
      if d.id = c.id then { id := d.id, score := max d.score c.score } :: ds
      else d :: insertMax c ds

/-- Deduplicate a scored list by id, keeping maxima. -/
def dedupMax : List ScoredCand → List ScoredCand
  | [] => []
  | c :: cs => insertMax c (dedupMax cs)

/-- The deterministic output order: larger combined score first, ties
broken by id. -/
def rankedBefore (a b : ScoredCand) : Bool :=
  decide (b.score < a.score)
    || (decide (a.score = b.score) && decide (a.id ≤ b.id))

/-- Insertion step of the stable sort by `rankedBefore`. -/
def insertRanked (a : ScoredCand) : List ScoredCand → List ScoredCand
  | [] => [a]
  | b :: bs =>
      if rankedBefore a b then a :: b :: bs else b :: insertRanked a bs

/-- Stable insertion sort by `rankedBefore`. -/
def sortRanked : List ScoredCand → List ScoredCand
  | [] => []
  | x :: xs => insertRanked x (sortRanked xs)

/-- Modelled from the spec: `rank` — score the over-fetched pool with the
weighted sum of normalized signals, deduplicate by entity id keeping the
maximum combined score, and sort by combined score with ties broken by
id. -/
def rank (wl ws : Rat) (cs : List Candidate) : List ScoredCand :=
  sortRanked (dedupMax (cs.map (fun c => ⟨c.id, combinedScore wl ws cs c⟩)))

/-! ## Sample data for concrete evaluations -/

/-- A concrete entity with the given id and path. -/
def sampleEntity (i : String) (path : String) : CodeEntity :=
  { id := i, kind := "function", path := path, startLine := 1, endLine := 3,
    signature := none, descText := none, embedding := none, metadata := [] }

/-- A concrete relationship with the given id and endpoints. -/
def sampleRel (i s t : String) : Relationship :=
  { id := i, source := s, target := t, kind := "calls", weight := none,
    metadata := [] }

/-- The store obtained by upserting one self-calling entity into scope
`"a"` of the empty store. -/
def wStore : GraphStore :=
  { entities := [("a", sampleEntity "e1" "a")],
    relationships := [("a", sampleRel "r1" "e1" "e1")] }

/-! ## AuthManager (from the documentation's embedded source,
`backend/auth/manager.py` and `backend/auth/session_store.py`) -/

/-- Redis-backed session storage, modelled as the list of stored keys. -/
structure SessionStore where
  redisKeys : List String
deriving DecidableEq, Repr

/-- `SessionStore.delete`: remove session from Redis
(`return self.redis.delete(f"session:\x7bsession_id\x7d")`); the deletion
count is truthy exactly when the key was present. -/
def SessionStore.delete (st : SessionStore) (sid : String) :
    SessionStore × Bool :=
  let key := "session:" ++ sid
  (⟨st.redisKeys.filter (fun k => k != key)⟩, st.redisKeys.contains key)

/-- The `User` dataclass from `backend/models/user.py` (excerpt fields). -/
structure UserRec where
  id : Nat
  username : String
  email : String
deriving DecidableEq, Repr

/-- `AuthManager.__init__`: `self.sessions = {}` and
`self.session_store = SessionStore()`. -/
structure AuthManager where
  sessions : List (String × UserRec)
  session_store : SessionStore
deriving DecidableEq, Repr

/-- `AuthManager.authenticate`: the credential check and session-id creation
are external helpers, passed here as the option of a verified user and the
fresh session id; on success the session is stored in `self.sessions`. -/
def AuthManager.authenticate (m : AuthManager)
    (verified : Option UserRec) (sid : String) :
    AuthManager × Option UserRec :=
  match verified with
  | some u => ({ m with sessions := m.sessions ++ [(sid, u)] }, some u)
  | none => (m, none)

/-- `AuthManager.logout`: `return self.session_store.delete(session_id)` —
the `sessions` dictionary is not touched. -/
def AuthManager.logout (m : AuthManager) (sid : String) :
    AuthManager × Bool :=
  let r := m.session_store.delete sid
  ({ m with session_store := r.1 }, r.2)

/-! ## ContextResult (dataclass from `docs/API.md`) -/

/-- `FileContext` captures file-level information (its fields are opaque to
the claims; the path suffices for the embedding). -/
structure FileContext where
  path : String
deriving DecidableEq, Repr

/-- The `ContextResult` dataclass: `minimal_closure`, `files`,
`entry_points`, `flow_diagram` are required; `fix_suggestions`,
`analysis_summary`, `confidence`, `metadata` carry defaults
(`default_factory` empty collections, `""`, `1.0`). -/
structure ContextResult where
  minimal_closure : String
  files : List FileContext
  entry_points : List CodeEntity
  flow_diagram : String
  fix_suggestions : List String := []
  analysis_summary : String := ""
  confidence : Rat := 1
  metadata : List (String × String) := []
deriving DecidableEq, Repr

/-- Construct a `ContextResult` giving only the required fields, as a Python
call `ContextResult(minimal_closure=.., files=.., entry_points=..,
flow_diagram=..)` would. -/
def mkContextResult (mc : String) (fs : List FileContext)
    (eps : List CodeEntity) (fd : String) : ContextResult :=
  { minimal_closure := mc, files := fs, entry_points := eps,
    flow_diagram := fd }

end Coretx

namespace Coretx

/-! ## Theorems -/

/-- **C10.** A `ContextResult` constructed without explicit values for its
optional fields has `confidence = 1.0`, empty `analysis_summary`, and empty
`fix_suggestions` and `metadata` collections. -/
theorem contextResult_defaults (mc : String) (fs : List FileContext)
    (eps : List CodeEntity) (fd : String) :
    (mkContextResult mc fs eps fd).confidence = 1 ∧
    (mkContextResult mc fs eps fd).analysis_summary = "" ∧
    (mkContextResult mc fs eps fd).fix_suggestions = [] ∧
    (mkContextResult mc fs eps fd).metadata = [] := by
  refine ⟨rfl, rfl, rfl, rfl⟩

theorem noDangling_remove_file (g : GraphStore) (scope : String) :
    noDangling (remove_file g scope) = true := by
  simp only [noDangling, remove_file, hasEntity, entityIds, List.all_eq_true]
  intro p hp
  rw [List.mem_filter] at hp
  simp only [Bool.and_eq_true] at hp
  simp only [Bool.and_eq_true]
  exact ⟨hp.2.1.2, hp.2.2⟩

theorem noDangling_upsert_ok (g : GraphStore) (scope : String)
    (es : List CodeEntity) (rs : List Relationship) (g' : GraphStore)
    (h : upsert_file g scope es rs = Except.ok g') :
    noDangling g' = true := by
  simp only [upsert_file] at h
  by_cases hc :
      (rs.all (fun r =>
        ((g.entities.filter (fun p => p.1 != scope)).map (fun p => p.2.id)
            ++ es.map CodeEntity.id).contains r.source
        && ((g.entities.filter (fun p => p.1 != scope)).map (fun p => p.2.id)
            ++ es.map CodeEntity.id).contains r.target)) = true
  · rw [if_pos hc] at h
    injection h with h
    subst h
    simp only [noDangling, hasEntity, entityIds, List.all_eq_true,
      List.map_append, List.map_map, List.mem_append, Bool.and_eq_true]
    intro p hp
    rcases hp with hp | hp
    · rw [List.mem_filter] at hp
      simp only [Bool.and_eq_true] at hp
      refine ⟨?_, ?_⟩
      · simpa [Function.comp] using hp.2.1.2
      · simpa [Function.comp] using hp.2.2
    · rw [List.mem_map] at hp
      obtain ⟨r, hr, hpr⟩ := hp
      rw [List.all_eq_true] at hc
      have := hc r hr
      simp only [Bool.and_eq_true] at this
      subst hpr
      refine ⟨?_, ?_⟩
      · simpa [Function.comp] using this.1
      · simpa [Function.comp] using this.2
  · rw [if_neg hc] at h
    exact absurd h (by simp)

theorem noDangling_applyOp (g : GraphStore) (op : GraphOp)
    (h : noDangling g = true) : noDangling (applyOp g op) = true := by
  cases op with
  | upsert scope es rs =>
    simp only [applyOp]
    cases hu : upsert_file g scope es rs with
    | ok g' => exact noDangling_upsert_ok g scope es rs g' hu
    | error e => exact h
  | remove scope => exact noDangling_remove_file g scope

theorem noDangling_foldl (ops : List GraphOp) (g : GraphStore)
    (h : noDangling g = true) :
    noDangling (ops.foldl applyOp g) = true := by
  induction ops generalizing g with
  | nil => exact h
  | cons op ops ih => exact ih (applyOp g op) (noDangling_applyOp g op h)

/-- **C1.** No-dangling-edges invariant: after any sequence of Graph Store
mutations every relationship's endpoints are present as entities; an
`upsert_file` call is rejected exactly when some relationship endpoint is
absent from the combined entity set of the call; and `remove_file` never
leaves a relationship referencing a removed entity. -/
theorem no_dangling_edges :
    (∀ ops : List GraphOp, noDangling (applyOps ops) = true) ∧
    (∀ (g : GraphStore) (scope : String) (es : List CodeEntity)
        (rs : List Relationship),
      upsertRejected g scope es rs = !endpointsPresent g scope es rs) ∧
    (∀ (g : GraphStore) (scope : String),
      noDangling (remove_file g scope) = true) := by
  refine ⟨?_, ?_, ?_⟩
  · intro ops
    exact noDangling_foldl ops emptyStore (by rfl)
  · intro g scope es rs
    simp only [upsertRejected, upsert_file, endpointsPresent]
    by_cases hc :
        (rs.all (fun r =>
          ((g.entities.filter (fun p => p.1 != scope)).map (fun p => p.2.id)
              ++ es.map CodeEntity.id).contains r.source
          && ((g.entities.filter (fun p => p.1 != scope)).map (fun p => p.2.id)
              ++ es.map CodeEntity.id).contains r.target)) = true
    · rw [if_pos hc, hc]
      rfl
    · rw [if_neg hc]
      simp only [Bool.not_eq_true] at hc
      rw [hc]
      rfl
  · intro g scope
    exact noDangling_remove_file g scope

theorem filter_scope_of_filter_ne {α : Type} (scope : String)
    (l : List (String × α)) :
    (l.filter (fun p => p.1 != scope)).filter (fun p => p.1 == scope)
      = [] := by
  induction l with
  | nil => rfl
  | cons a l ih =>
    by_cases h : a.1 = scope
    · simp [List.filter_cons, h, ih]
    · simp [List.filter_cons, h, ih]

theorem filter_scope_of_map_pair {α : Type} (scope : String) (l : List α) :
    (((l.map (fun e => (scope, e))).filter
        (fun p => p.1 == scope)).map (fun p => p.2)) = l := by
  induction l with
  | nil => rfl
  | cons a l ih => simp [List.filter_cons, ih]

/-- **C2.** `upsert_file` atomicity: a failing call leaves the store exactly
as it was, and a succeeding call replaces the data owned by the scope with
precisely the given entities and relationships. -/
theorem upsert_file_atomic :
    (∀ (g : GraphStore) (scope : String) (es : List CodeEntity)
        (rs : List Relationship) (e : String),
      upsert_file g scope es rs = Except.error e →
        applyOp g (GraphOp.upsert scope es rs) = g) ∧
    (∀ (g : GraphStore) (scope : String) (es : List CodeEntity)
        (rs : List Relationship) (g' : GraphStore),
      upsert_file g scope es rs = Except.ok g' →
        ownedEntities g' scope = es ∧ ownedRelationships g' scope = rs) := by
  constructor
  · intro g scope es rs e h
    simp only [applyOp, h]
  · intro g scope es rs g' h
    simp only [upsert_file] at h
    by_cases hc :
        (rs.all (fun r =>
          ((g.entities.filter (fun p => p.1 != scope)).map (fun p => p.2.id)
              ++ es.map CodeEntity.id).contains r.source
          && ((g.entities.filter (fun p => p.1 != scope)).map (fun p => p.2.id)
              ++ es.map CodeEntity.id).contains r.target)) = true
    · rw [if_pos hc] at h
      injection h with h
      subst h
      constructor
      · simp only [ownedEntities, List.filter_append, List.map_append,
          filter_scope_of_filter_ne, List.nil_append]
        exact filter_scope_of_map_pair scope es
      · simp only [ownedRelationships, List.filter_append, List.map_append]
        have hkept :
            ((g.relationships.filter (fun p =>
              p.1 != scope
              && ((g.entities.filter (fun p => p.1 != scope)).map
                    (fun p => p.2.id) ++ es.map CodeEntity.id).contains
                    p.2.source
              && ((g.entities.filter (fun p => p.1 != scope)).map
                    (fun p => p.2.id) ++ es.map CodeEntity.id).contains
                    p.2.target)).filter (fun p => p.1 == scope)) = [] := by
          rw [List.filter_eq_nil_iff]
          intro p hp
          rw [List.mem_filter] at hp
          simp only [Bool.and_eq_true, bne_iff_ne] at hp
          simp only [beq_iff_eq]
          exact hp.2.1.1
        rw [hkept]
        simp only [List.map_nil, List.nil_append]
        exact filter_scope_of_map_pair scope rs
    · rw [if_neg hc] at h
      exact absurd h (by simp)

/-- Witness for C2: upserting one self-calling entity into the empty store
succeeds and afterwards scope `"a"` owns exactly that entity and that
relationship. -/
theorem upsert_file_atomic_witness :
    ownedEntities wStore "a" = [sampleEntity "e1" "a"] ∧
    ownedRelationships wStore "a" = [sampleRel "r1" "e1" "e1"] :=
  upsert_file_atomic.2 emptyStore "a" [sampleEntity "e1" "a"]
    [sampleRel "r1" "e1" "e1"] wStore (by rfl)

theorem mem_freshOnly_not_visited (l : List String) :
    ∀ (v : List String) (a : String), a ∈ freshOnly v l → a ∉ v := by
  induction l with
  | nil => intro v a h; exact absurd h (List.not_mem_nil a)
  | cons x xs ih =>
    intro v a h
    simp only [freshOnly] at h
    by_cases hx : v.contains x
    · rw [if_pos hx] at h
      exact ih v a h
    · rw [if_neg hx] at h
      simp at hx
      rcases List.mem_cons.mp h with rfl | h
      · exact hx
      · intro hv
        exact ih (x :: v) a h (List.mem_cons_of_mem x hv)

theorem freshOnly_nodup (l : List String) :
    ∀ v : List String, (freshOnly v l).Nodup := by
  induction l with
  | nil => intro v; exact List.nodup_nil
  | cons x xs ih =>
    intro v
    simp only [freshOnly]
    by_cases hx : v.contains x
    · rw [if_pos hx]; exact ih v
    · rw [if_neg hx]
      refine List.nodup_cons.mpr ⟨?_, ih (x :: v)⟩
      intro hmem
      exact mem_freshOnly_not_visited xs (x :: v) x hmem (List.mem_cons_self x v)

theorem bfsGo_nodup_disjoint (g : GraphStore) (kinds : List String)
    (dir : Direction) :
    ∀ (d : Nat) (frontier visited : List String) (depth : Nat),
      ((bfsGo g kinds dir d frontier visited depth).map Prod.fst).Nodup ∧
      ∀ a ∈ (bfsGo g kinds dir d frontier visited depth).map Prod.fst,
        a ∉ visited := by
  intro d
  induction d with
  | zero =>
    intro frontier visited depth
    exact ⟨List.nodup_nil, fun a h => absurd h (List.not_mem_nil a)⟩
  | succ d ih =>
    intro frontier visited depth
    simp only [bfsGo, List.map_append, List.map_map]
    rw [show (Prod.fst ∘ fun n : String => (n, depth)) = id from rfl,
      List.map_id]
    obtain ⟨ihnd, ihdisj⟩ :=
      ih (freshOnly visited (levelStep g kinds dir frontier))
        (freshOnly visited (levelStep g kinds dir frontier) ++ visited)
        (depth + 1)
    constructor
    · rw [List.nodup_append]
      refine ⟨freshOnly_nodup _ visited, ihnd, ?_⟩
      intro a ha hb
      exact ihdisj a hb (List.mem_append_left visited ha)
    · intro a ha
      rcases List.mem_append.mp ha with ha | ha
      · exact mem_freshOnly_not_visited _ visited a ha
      · intro hv
        exact ihdisj a ha (List.mem_append_right _ hv)

theorem bfsGo_depth_sorted (g : GraphStore) (kinds : List String)
    (dir : Direction) :
    ∀ (d : Nat) (frontier visited : List String) (depth : Nat),
      (bfsGo g kinds dir d frontier visited depth).Pairwise
        (fun a b => a.2 ≤ b.2) ∧
      ∀ a ∈ bfsGo g kinds dir d frontier visited depth,
        depth ≤ a.2 ∧ a.2 + 1 ≤ depth + d := by
  intro d
  induction d with
  | zero =>
    intro frontier visited depth
    exact ⟨List.Pairwise.nil, fun a h => absurd h (List.not_mem_nil a)⟩
  | succ d ih =>
    intro frontier visited depth
    simp only [bfsGo]
    obtain ⟨ihp, ihb⟩ :=
      ih (freshOnly visited (levelStep g kinds dir frontier))
        (freshOnly visited (levelStep g kinds dir frontier) ++ visited)
        (depth + 1)
    constructor
    · rw [List.pairwise_append]
      refine ⟨?_, ihp, ?_⟩
      · rw [List.pairwise_map]
        exact List.pairwise_of_forall_mem_list (fun a _ b _ => le_rfl)
      · intro a ha b hb
        rw [List.mem_map] at ha
        obtain ⟨n, _, rfl⟩ := ha
        exact le_trans (Nat.le_succ depth) (ihb b hb).1
    · intro a ha
      rcases List.mem_append.mp ha with ha | ha
      · rw [List.mem_map] at ha
        obtain ⟨n, _, rfl⟩ := ha
        exact ⟨le_rfl, by omega⟩
      · obtain ⟨h1, h2⟩ := ihb a ha
        exact ⟨le_trans (Nat.le_succ depth) h1, by omega⟩

/-- **C4.** `neighbors` is a breadth-first traversal with visited-set
dedup: each entity appears at most once, the output is in non-decreasing
depth order, and every reported depth lies between 1 and `max_depth` (so
the traversal terminates even on cyclic graphs). -/
theorem neighbors_bfs_contract (g : GraphStore) (i : String)
    (kinds : List String) (dir : Direction) (maxDepth : Nat) :
    ((neighbors g i kinds dir maxDepth).map Prod.fst).Nodup ∧
    (neighbors g i kinds dir maxDepth).Pairwise (fun a b => a.2 ≤ b.2) ∧
    ∀ a ∈ neighbors g i kinds dir maxDepth, 1 ≤ a.2 ∧ a.2 ≤ maxDepth := by
  refine ⟨(bfsGo_nodup_disjoint g kinds dir maxDepth [i] [i] 1).1,
    (bfsGo_depth_sorted g kinds dir maxDepth [i] [i] 1).1, ?_⟩
  intro a ha
  obtain ⟨h1, h2⟩ := (bfsGo_depth_sorted g kinds dir maxDepth [i] [i] 1).2 a ha
  exact ⟨h1, by omega⟩

theorem popBest_ne_none (x : FrontierEntry) (xs : List FrontierEntry) :
    popBest (x :: xs) ≠ none := by
  rw [popBest]
  cases hx : popBest xs with
  | none => simp
  | some br =>
    obtain ⟨b, rest⟩ := br
    dsimp only
    split <;> simp

theorem popBest_length (l : List FrontierEntry) (e : FrontierEntry)
    (rest : List FrontierEntry) (h : popBest l = some (e, rest)) :
    l.length = rest.length + 1 := by
  induction l generalizing e rest with
  | nil => exact absurd h (by simp [popBest])
  | cons x xs ih =>
    rw [popBest] at h
    cases hx : popBest xs with
    | none =>
      rw [hx] at h
      simp only [Option.some.injEq, Prod.mk.injEq] at h
      obtain ⟨rfl, rfl⟩ := h
      cases xs with
      | nil => simp
      | cons y ys => exact absurd hx (popBest_ne_none y ys)
    | some br =>
      obtain ⟨b, brest⟩ := br
      rw [hx] at h
      dsimp only at h
      by_cases hb : b.score > x.score
      · rw [if_pos hb] at h
        simp only [Option.some.injEq, Prod.mk.injEq] at h
        obtain ⟨rfl, rfl⟩ := h
        have := ih b brest hx
        simp only [List.length_cons] at this ⊢
        omega
      · rw [if_neg hb] at h
        simp only [Option.some.injEq, Prod.mk.injEq] at h
        obtain ⟨rfl, rfl⟩ := h
        simp

theorem sizeIn_pos (g : GraphStore) (i : String) : 1 ≤ sizeIn g i := by
  unfold sizeIn
  cases g.entities.find? (fun p => p.2.id == i) with
  | none => exact le_rfl
  | some p => simp [entitySize]

theorem foldr_max_le_of_mem (a : Nat) (b : Nat) (l : List Nat)
    (h : a ∈ l) : a ≤ l.foldr max b := by
  induction l with
  | nil => exact absurd h (List.not_mem_nil a)
  | cons x xs ih =>
    rcases List.mem_cons.mp h with rfl | h
    · exact le_max_left _ _
    · exact le_trans (ih h) (le_max_right _ _)

theorem le_foldr_max (b : Nat) (l : List Nat) : b ≤ l.foldr max b := by
  induction l with
  | nil => exact le_rfl
  | cons x xs ih => exact le_trans ih (le_max_right _ _)

theorem sizeIn_le_maxEntSize (g : GraphStore) (i : String) :
    sizeIn g i ≤ maxEntSize g := by
  unfold sizeIn maxEntSize
  cases hf : g.entities.find? (fun p => p.2.id == i) with
  | none => exact le_foldr_max 1 _
  | some p =>
    refine foldr_max_le_of_mem _ 1 _ ?_
    rw [List.mem_map]
    exact ⟨p, List.mem_of_find?_eq_some hf, rfl⟩

theorem length_le_includedSize (g : GraphStore) (l : List FrontierEntry) :
    l.length ≤ includedSize g l := by
  induction l with
  | nil => simp [includedSize]
  | cons x xs ih =>
    have := sizeIn_pos g x.id
    simp only [includedSize, List.map_cons, List.sum_cons,
      List.length_cons] at ih ⊢
    omega

theorem includedSize_append (g : GraphStore) (l m : List FrontierEntry) :
    includedSize g (l ++ m) = includedSize g l + includedSize g m := by
  simp [includedSize]

theorem includedSize_map_le (g : GraphStore) (fresh : List String)
    (sc : Rat) (dp : Nat) :
    includedSize g (fresh.map (fun n => ⟨n, sc, dp⟩))
      ≤ fresh.length * maxEntSize g := by
  simp only [includedSize, List.map_map]
  have h := List.sum_le_card_nsmul
    (fresh.map ((fun e => sizeIn g e.id) ∘ fun n => (⟨n, sc, dp⟩ : FrontierEntry)))
    (maxEntSize g) ?_
  · simpa [smul_eq_mul] using h
  · intro x hx
    rw [List.mem_map] at hx
    obtain ⟨n, _, rfl⟩ := hx
    exact sizeIn_le_maxEntSize g n

theorem freshOnly_length_le (l : List String) :
    ∀ v : List String, (freshOnly v l).length ≤ l.length := by
  induction l with
  | nil => intro v; exact le_rfl
  | cons x xs ih =>
    intro v
    simp only [freshOnly]
    by_cases hx : v.contains x
    · rw [if_pos hx]
      exact le_trans (ih v) (Nat.le_succ _)
    · rw [if_neg hx]
      simpa using ih (x :: v)

theorem dirStep_length_le (dir : Direction) (i : String)
    (r : Relationship) : (dirStep dir i r).length ≤ 2 := by
  cases dir with
  | outgoing => simp only [dirStep]; split <;> simp
  | incoming => simp only [dirStep]; split <;> simp
  | both =>
    simp only [dirStep, List.length_append]
    have h1 : (if r.source == i then [r.target] else []).length ≤ 1 := by
      split <;> simp
    have h2 : (if r.target == i then [r.source] else []).length ≤ 1 := by
      split <;> simp
    omega

theorem scanRels_length_le (kinds : List String) (dir : Direction)
    (i : String) (rs : List (String × Relationship)) :
    (scanRels kinds dir i rs).length ≤ 2 * rs.length := by
  induction rs with
  | nil => simp [scanRels]
  | cons p ps ih =>
    simp only [scanRels, List.length_append, List.length_cons]
    have h2 : (if kindMatches kinds p.2
        then dirStep dir i p.2 else []).length ≤ 2 := by
      split
      · exact dirStep_length_le dir i p.2
      · simp
    omega

theorem nodup_append_singleton (l : List String) (a : String)
    (h : l.Nodup) (ha : a ∉ l) : (l ++ [a]).Nodup := by
  rw [List.nodup_append]
  refine ⟨h, List.nodup_singleton a, ?_⟩
  intro x hx hxa
  rw [List.mem_singleton] at hxa
  subst hxa
  exact ha hx

theorem expandLoop_nodup (g : GraphStore) (decay : Rat)
    (maxDepth budget : Nat) :
    ∀ (fuel : Nat) (st : AsmState), st.expanded.Nodup →
      (expandLoop g decay maxDepth budget fuel st).expanded.Nodup := by
  intro fuel
  induction fuel with
  | zero => intro st h; exact h
  | succ fuel ih =>
    intro st h
    rw [expandLoop]
    split
    · exact h
    · split
      · exact h
      · rename_i e rest heq
        split
        · exact ih _ h
        · rename_i hcon
          refine ih _ ?_
          refine nodup_append_singleton _ _ h ?_
          intro hmem
          exact hcon (by simpa using hmem)

theorem expandLoop_halt (g : GraphStore) (decay : Rat)
    (maxDepth budget C : Nat)
    (hC : budget + 2 * g.relationships.length * maxEntSize g ≤ C) :
    ∀ (fuel : Nat) (st : AsmState),
      st.pops + st.frontier.length ≤ st.included.length →
      includedSize g st.included ≤ C →
      st.fuelOut = false →
      C + 1 ≤ st.pops + fuel →
      (expandLoop g decay maxDepth budget fuel st).fuelOut = false ∧
      (expandLoop g decay maxDepth budget fuel st).pops ≤ C := by
  intro fuel
  induction fuel with
  | zero =>
    intro st hlen hsize hfo hfuel
    have hls := length_le_includedSize g st.included
    omega
  | succ fuel ih =>
    intro st hlen hsize hfo hfuel
    rw [expandLoop]
    split
    · have hls := length_le_includedSize g st.included
      exact ⟨hfo, by omega⟩
    · rename_i hbud
      split
      · have hls := length_le_includedSize g st.included
        exact ⟨hfo, by omega⟩
      · rename_i e rest heq
        have hrest := popBest_length st.frontier e rest heq
        split
        · refine ih _ ?_ ?_ ?_ ?_
          · show st.pops + 1 + rest.length ≤ st.included.length
            omega
          · show includedSize g st.included ≤ C
            exact hsize
          · show st.fuelOut = false
            exact hfo
          · show C + 1 ≤ st.pops + 1 + fuel
            omega
        · have hfreshlen :
              (freshOnly (st.included.map FrontierEntry.id)
                (if e.depth < maxDepth
                 then scanRels [] Direction.both e.id g.relationships
                 else [])).length ≤ 2 * g.relationships.length := by
            refine le_trans (freshOnly_length_le _ _) ?_
            split
            · exact scanRels_length_le [] Direction.both e.id g.relationships
            · simp
          have hmul :
              (freshOnly (st.included.map FrontierEntry.id)
                (if e.depth < maxDepth
                 then scanRels [] Direction.both e.id g.relationships
                 else [])).length * maxEntSize g
              ≤ 2 * g.relationships.length * maxEntSize g :=
            Nat.mul_le_mul_right _ hfreshlen
          have haddsz := includedSize_map_le g
            (freshOnly (st.included.map FrontierEntry.id)
              (if e.depth < maxDepth
               then scanRels [] Direction.both e.id g.relationships
               else []))
            (e.score * decay) (e.depth + 1)
          refine ih _ ?_ ?_ ?_ ?_
          · simp only [List.length_append, List.length_map]
            omega
          · rw [includedSize_append]
            omega
          · exact hfo
          · show C + 1 ≤ st.pops + 1 + fuel
            omega

/-- **C3.** Closure Assembler termination: on every finite graph (cyclic
or not), every seed set, and every budget, the EXPANDING phase expands
each entity at most once (its expanded list is duplicate-free), finishes
without exhausting its fuel, and performs at most
`seed size + budget + 2·(edge count)·(largest entity size)` frontier pops
— the concrete form of the O(budget × average-degree) step bound. -/
theorem closure_expanding_terminates (g : GraphStore) (decay : Rat)
    (maxDepth budget : Nat) (seeds : List FrontierEntry) :
    (runExpanding g decay maxDepth budget seeds).fuelOut = false ∧
    (runExpanding g decay maxDepth budget seeds).expanded.Nodup ∧
    (runExpanding g decay maxDepth budget seeds).pops + 1
      ≤ asmFuel g budget seeds := by
  have h := expandLoop_halt g decay maxDepth budget
    (includedSize g seeds + budget
      + 2 * g.relationships.length * maxEntSize g)
    (by omega)
    (asmFuel g budget seeds) (asmInit seeds)
    (by simp [asmInit])
    (by simp only [asmInit]; omega)
    rfl
    (by simp only [asmInit, asmFuel]; omega)
  refine ⟨h.1, ?_, ?_⟩
  · exact expandLoop_nodup g decay maxDepth budget _ _ List.nodup_nil
  · have := h.2
    simp only [asmFuel]
    simp only [runExpanding]
    omega

/-- **C7.** Closure Assembler edge policy: zero candidates at SEEDING
yield the empty result with confidence 0; a budget smaller than the top
seed entity's size yields that one seed with truncated content and the
`oversized_seed` flag set. -/
theorem closure_edge_policy :
    (∀ (g : GraphStore) (budget maxDepth : Nat) (decay : Rat),
      assemble g [] budget maxDepth decay = emptyClosure ∧
      (assemble g [] budget maxDepth decay).confidence = 0 ∧
      (assemble g [] budget maxDepth decay).members = []) ∧
    (∀ (g : GraphStore) (cands : List (String × Rat))
        (budget maxDepth : Nat) (decay : Rat)
        (top : FrontierEntry) (rest : List FrontierEntry),
      popBest (dedupSeeds [] cands) = some (top, rest) →
      budget < sizeIn g top.id →
      (assemble g cands budget maxDepth decay).members = [top] ∧
      (assemble g cands budget maxDepth decay).oversized_seed = true ∧
      (assemble g cands budget maxDepth decay).truncated = true) := by
  constructor
  · intro g budget maxDepth decay
    exact ⟨rfl, rfl, rfl⟩
  · intro g cands budget maxDepth decay top rest hpop hbud
    cases hd : dedupSeeds [] cands with
    | nil =>
      rw [hd] at hpop
      exact absurd hpop (by simp [popBest])
    | cons s ss =>
      rw [hd] at hpop
      simp [assemble, hd, hpop, hbud]

/-- Witness for C7: with the one-entity store, candidate list
`[("e1", 1)]` and budget 0 (< the seed's size 3), `assemble` returns that
seed flagged `oversized_seed`. -/
theorem closure_edge_policy_witness :
    (assemble wStore [("e1", (1 : Rat))] 0 2 (1 / 2)).members
        = [⟨"e1", 1, 0⟩] ∧
    (assemble wStore [("e1", (1 : Rat))] 0 2 (1 / 2)).oversized_seed
        = true ∧
    (assemble wStore [("e1", (1 : Rat))] 0 2 (1 / 2)).truncated = true :=
  closure_edge_policy.2 wStore [("e1", (1 : Rat))] 0 2 (1 / 2)
    ⟨"e1", 1, 0⟩ [] (by decide) (by decide)

theorem mem_ids_insertMax (c : ScoredCand) (l : List ScoredCand)
    (x : String) :
    x ∈ (insertMax c l).map ScoredCand.id
      ↔ x = c.id ∨ x ∈ l.map ScoredCand.id := by
  induction l with
  | nil => simp [insertMax]
  | cons d ds ih =>
    simp only [insertMax]
    by_cases h : d.id = c.id
    · rw [if_pos h]
      simp only [List.map_cons, List.mem_cons]
      rw [h]
      tauto
    · rw [if_neg h]
      simp only [List.map_cons, List.mem_cons, ih]
      tauto

theorem nodup_ids_insertMax (c : ScoredCand) (l : List ScoredCand)
    (h : (l.map ScoredCand.id).Nodup) :
    ((insertMax c l).map ScoredCand.id).Nodup := by
  induction l with
  | nil => simp [insertMax]
  | cons d ds ih =>
    rw [List.map_cons, List.nodup_cons] at h
    simp only [insertMax]
    by_cases hid : d.id = c.id
    · rw [if_pos hid, List.map_cons, List.nodup_cons]
      exact ⟨h.1, h.2⟩
    · rw [if_neg hid, List.map_cons, List.nodup_cons]
      refine ⟨?_, ih h.2⟩
      intro hx
      rcases (mem_ids_insertMax c ds d.id).mp hx with heq | hmem
      · exact hid heq
      · exact h.1 hmem

theorem nodup_ids_dedupMax (l : List ScoredCand) :
    ((dedupMax l).map ScoredCand.id).Nodup := by
  induction l with
  | nil => simp [dedupMax]
  | cons c cs ih => exact nodup_ids_insertMax c (dedupMax cs) ih

theorem insertRanked_perm (a : ScoredCand) (l : List ScoredCand) :
    List.Perm (insertRanked a l) (a :: l) := by
  induction l with
  | nil => exact List.Perm.refl _
  | cons b bs ih =>
    simp only [insertRanked]
    split
    · exact List.Perm.refl _
    · exact List.Perm.trans (List.Perm.cons b ih) (List.Perm.swap a b bs)

theorem sortRanked_perm (l : List ScoredCand) :
    List.Perm (sortRanked l) l := by
  induction l with
  | nil => exact List.Perm.refl _
  | cons x xs ih =>
    exact List.Perm.trans (insertRanked_perm x (sortRanked xs))
      (List.Perm.cons x ih)

theorem rankedBefore_total (a b : ScoredCand) :
    rankedBefore a b = true ∨ rankedBefore b a = true := by
  simp only [rankedBefore, Bool.or_eq_true, Bool.and_eq_true,
    decide_eq_true_eq]
  rcases lt_trichotomy a.score b.score with h | h | h
  · right; left; exact h
  · rcases le_total a.id b.id with hid | hid
    · left; right; exact ⟨h, hid⟩
    · right; right; exact ⟨h.symm, hid⟩
  · left; left; exact h

theorem rankedBefore_trans (a b c : ScoredCand)
    (h1 : rankedBefore a b = true) (h2 : rankedBefore b c = true) :
    rankedBefore a c = true := by
  simp only [rankedBefore, Bool.or_eq_true, Bool.and_eq_true,
    decide_eq_true_eq] at h1 h2 ⊢
  rcases h1 with h1 | h1
  · rcases h2 with h2 | h2
    · left; exact lt_trans h2 h1
    · left; exact h2.1 ▸ h1
  · rcases h2 with h2 | h2
    · left; exact h1.1 ▸ h2
    · right; exact ⟨h1.1.trans h2.1, le_trans h1.2 h2.2⟩

theorem mem_insertRanked (a x : ScoredCand) (l : List ScoredCand) :
    x ∈ insertRanked a l ↔ x = a ∨ x ∈ l := by
  rw [List.Perm.mem_iff (insertRanked_perm a l)]
  simp

theorem insertRanked_sorted (a : ScoredCand) (l : List ScoredCand)
    (h : l.Pairwise (fun x y => rankedBefore x y = true)) :
    (insertRanked a l).Pairwise (fun x y => rankedBefore x y = true) := by
  induction l with
  | nil => simp [insertRanked]
  | cons b bs ih =>
    rw [List.pairwise_cons] at h
    simp only [insertRanked]
    split
    · rename_i hab
      rw [List.pairwise_cons]
      refine ⟨?_, List.pairwise_cons.mpr h⟩
      intro y hy
      rcases List.mem_cons.mp hy with rfl | hy
      · exact hab
      · exact rankedBefore_trans a b y hab (h.1 y hy)
    · rename_i hab
      rw [List.pairwise_cons]
      refine ⟨?_, ih h.2⟩
      intro y hy
      rcases (mem_insertRanked a y bs).mp hy with rfl | hy
      · rcases rankedBefore_total y b with h' | h'
        · exact absurd h' hab
        · exact h'
      · exact h.1 y hy

theorem sortRanked_sorted (l : List ScoredCand) :
    (sortRanked l).Pairwise (fun x y => rankedBefore x y = true) := by
  induction l with
  | nil => simp [sortRanked]
  | cons x xs ih => exact insertRanked_sorted x (sortRanked xs) ih

theorem rank_ids_nodup (wl ws : Rat) (cs : List Candidate) :
    ((rank wl ws cs).map ScoredCand.id).Nodup := by
  have hperm := sortRanked_perm
    (dedupMax (cs.map (fun c => ⟨c.id, combinedScore wl ws cs c⟩)))
  exact ((hperm.map ScoredCand.id).nodup_iff).mpr
    (nodup_ids_dedupMax (cs.map (fun c => ⟨c.id, combinedScore wl ws cs c⟩)))

theorem listMin_le_of_mem (a : Rat) (l : List Rat) (h : a ∈ l) :
    listMin l ≤ a := by
  induction l with
  | nil => exact absurd h (List.not_mem_nil a)
  | cons x xs ih =>
    cases xs with
    | nil =>
      rcases List.mem_cons.mp h with rfl | h
      · simp [listMin]
      · exact absurd h (List.not_mem_nil a)
    | cons y ys =>
      simp only [listMin]
      rcases List.mem_cons.mp h with rfl | h
      · exact min_le_left _ _
      · exact le_trans (min_le_right _ _) (ih h)

theorem le_listMax_of_mem (a : Rat) (l : List Rat) (h : a ∈ l) :
    a ≤ listMax l := by
  induction l with
  | nil => exact absurd h (List.not_mem_nil a)
  | cons x xs ih =>
    cases xs with
    | nil =>
      rcases List.mem_cons.mp h with rfl | h
      · simp [listMax]
      · exact absurd h (List.not_mem_nil a)
    | cons y ys =>
      simp only [listMax]
      rcases List.mem_cons.mp h with rfl | h
      · exact le_max_left _ _
      · exact le_trans (ih h) (le_max_right _ _)

theorem listMin_mem (l : List Rat) (h : l ≠ []) : listMin l ∈ l := by
  induction l with
  | nil => exact absurd rfl h
  | cons x xs ih =>
    cases xs with
    | nil => simp [listMin]
    | cons y ys =>
      simp only [listMin]
      rcases le_total x (listMin (y :: ys)) with hx | hx
      · rw [min_eq_left hx]
        exact List.mem_cons_self x _
      · rw [min_eq_right hx]
        exact List.mem_cons_of_mem x (ih (by simp))

theorem listMax_le (l : List Rat) (b : Rat) (hne : l ≠ [])
    (h : ∀ a ∈ l, a ≤ b) : listMax l ≤ b := by
  induction l with
  | nil => exact absurd rfl hne
  | cons x xs ih =>
    cases xs with
    | nil => simpa [listMax] using h x (List.mem_cons_self x [])
    | cons y ys =>
      simp only [listMax]
      refine max_le (h x (List.mem_cons_self x _)) (ih (by simp) ?_)
      intro a ha
      exact h a (List.mem_cons_of_mem x ha)

theorem listMin_mono : ∀ {l l' : List Rat},
    List.Forall₂ (fun a b => a ≤ b) l l' → listMin l ≤ listMin l' := by
  intro l
  induction l with
  | nil =>
    intro l' h
    cases h
    exact le_rfl
  | cons x xs ih =>
    intro l' h
    cases h with
    | cons hxy htail =>
      cases xs with
      | nil =>
        cases htail
        simpa [listMin] using hxy
      | cons y ys =>
        cases htail with
        | cons h2 h3 =>
          simp only [listMin]
          exact min_le_min hxy (ih (List.Forall₂.cons h2 h3))

theorem listMax_mono : ∀ {l l' : List Rat},
    List.Forall₂ (fun a b => a ≤ b) l l' → listMax l ≤ listMax l' := by
  intro l
  induction l with
  | nil =>
    intro l' h
    cases h
    exact le_rfl
  | cons x xs ih =>
    intro l' h
    cases h with
    | cons hxy htail =>
      cases xs with
      | nil =>
        cases htail
        simpa [listMax] using hxy
      | cons y ys =>
        cases htail with
        | cons h2 h3 =>
          simp only [listMax]
          exact max_le_max hxy (ih (List.Forall₂.cons h2 h3))

theorem normScore_anti (lo lo' hi hi' f : Rat)
    (h1 : lo ≤ lo') (h2 : hi ≤ hi') (h3 : lo' ≤ f) (h4 : f ≤ hi) :
    normScore lo' hi' f ≤ normScore lo hi f := by
  simp only [normScore]
  split
  · rename_i hdeg'
    split
    · exact le_rfl
    · rename_i hdeg
      have hflo : f = hi := le_antisymm h4 (by linarith)
      rw [hflo, div_self (sub_ne_zero.mpr hdeg)]
  · rename_i hdeg'
    have hlt' : lo' < hi' :=
      lt_of_le_of_ne (by linarith) (fun h => hdeg' h.symm)
    split
    · rename_i hdeg
      have hf : f = lo' := le_antisymm (by linarith) h3
      rw [hf, sub_self, zero_div]
      norm_num
    · rename_i hdeg
      have hlt : lo < hi :=
        lt_of_le_of_ne (by linarith) (fun h => hdeg h.symm)
      rw [div_le_div_iff₀ (by linarith) (by linarith)]
      nlinarith [mul_nonneg (sub_nonneg.mpr h2)
          (sub_nonneg.mpr (le_trans h1 h3)),
        mul_nonneg (sub_nonneg.mpr h1) (sub_nonneg.mpr h4)]

theorem normScore_target (lo lo' hi hi' s s' : Rat)
    (hss' : s ≤ s') (h1 : lo ≤ lo') (h2 : hi ≤ hi')
    (hlos : lo ≤ s) (hshi : s ≤ hi)
    (hlops : lo' ≤ s') (hsphi : s' ≤ hi')
    (hup : hi' ≤ max hi s')
    (hlocase : lo' = lo ∨ s = lo) :
    normScore lo hi s ≤ normScore lo' hi' s' := by
  simp only [normScore]
  split
  · rename_i hdeg
    split
    · exact le_rfl
    · rename_i hdeg'
      have hseq : s = hi := le_antisymm hshi (hdeg ▸ hlos)
      have hmax : max hi s' = s' := max_eq_right (hseq ▸ hss')
      have hs'eq : s' = hi' := le_antisymm hsphi (hmax ▸ hup)
      rw [hs'eq, div_self (sub_ne_zero.mpr hdeg')]
  · rename_i hdeg
    have hlt : lo < hi := lt_of_le_of_ne (le_trans hlos hshi)
      (fun h => hdeg h.symm)
    split
    · rename_i hdeg'
      rw [div_le_one (by linarith)]
      linarith
    · rename_i hdeg'
      have hlt' : lo' < hi' := lt_of_le_of_ne (le_trans hlops hsphi)
        (fun h => hdeg' h.symm)
      rcases hlocase with hE | hE
      · subst hE
        by_cases hcase : s' ≤ hi
        · have hhi' : hi' = hi :=
            le_antisymm (le_trans hup (max_le le_rfl hcase)) h2
          rw [hhi']
          exact div_le_div_of_nonneg_right (by linarith) (by linarith)
        · have hmax : max hi s' = s' := max_eq_right (by linarith)
          have hs'eq : s' = hi' := le_antisymm hsphi (hmax ▸ hup)
          rw [hs'eq, div_self (sub_ne_zero.mpr hdeg')]
          rw [div_le_one (by linarith)]
          linarith
      · rw [hE, sub_self, zero_div]
        exact div_nonneg (by linarith) (by linarith)

theorem forall₂_map_le (l : List Candidate) (f g : Candidate → Rat)
    (h : ∀ a ∈ l, f a ≤ g a) :
    List.Forall₂ (fun a b => a ≤ b) (l.map f) (l.map g) := by
  induction l with
  | nil => exact List.Forall₂.nil
  | cons x xs ih =>
    exact List.Forall₂.cons (h x (List.mem_cons_self x xs))
      (ih (fun a ha => h a (List.mem_cons_of_mem x ha)))

theorem lexScores_bumpLex (cs : List Candidate) (i : String) (n : Rat) :
    lexScores (bumpLex cs i n)
      = cs.map (fun a => if a.id = i then n else a.lex) := by
  simp only [lexScores, bumpLex, List.map_map]
  refine List.map_congr_left ?_
  intro a _
  by_cases h : a.id = i <;> simp [Function.comp, h]

theorem semScores_bumpLex (cs : List Candidate) (i : String) (n : Rat) :
    semScores (bumpLex cs i n) = semScores cs := by
  simp only [semScores, bumpLex, List.map_map]
  refine List.map_congr_left ?_
  intro a _
  by_cases h : a.id = i <;> simp [Function.comp, h]

theorem forall₂_lex_bump (cs : List Candidate) (i : String) (n : Rat)
    (c : Candidate) (hc : c ∈ cs) (hcid : c.id = i)
    (hnd : (cs.map Candidate.id).Nodup) (hupn : c.lex ≤ n) :
    List.Forall₂ (fun a b => a ≤ b) (lexScores cs)
      (lexScores (bumpLex cs i n)) := by
  rw [lexScores_bumpLex]
  refine forall₂_map_le cs _ _ ?_
  intro a ha
  by_cases h : a.id = i
  · rw [if_pos h]
    have hac : a = c :=
      List.inj_on_of_nodup_map hnd ha hc (h.trans hcid.symm)
    rw [hac]
    exact hupn
  · rw [if_neg h]

theorem lex_mem_bump_self (cs : List Candidate) (i : String) (n : Rat)
    (c : Candidate) (hc : c ∈ cs) (hcid : c.id = i) :
    n ∈ lexScores (bumpLex cs i n) := by
  rw [lexScores_bumpLex, List.mem_map]
  exact ⟨c, hc, by rw [if_pos hcid]⟩

theorem lex_mem_bump_other (cs : List Candidate) (i : String) (n : Rat)
    (f : Candidate) (hf : f ∈ cs) (hfid : f.id ≠ i) :
    f.lex ∈ lexScores (bumpLex cs i n) := by
  rw [lexScores_bumpLex, List.mem_map]
  exact ⟨f, hf, by rw [if_neg hfid]⟩

theorem listMax_bump_le (cs : List Candidate) (i : String) (n : Rat)
    (hne : cs ≠ []) :
    listMax (lexScores (bumpLex cs i n))
      ≤ max (listMax (lexScores cs)) n := by
  rw [lexScores_bumpLex]
  refine listMax_le _ _ (by simpa using hne) ?_
  intro a ha
  rw [List.mem_map] at ha
  obtain ⟨x, hx, rfl⟩ := ha
  by_cases h : x.id = i
  · rw [if_pos h]
    exact le_max_right _ _
  · rw [if_neg h]
    exact le_trans
      (le_listMax_of_mem _ _ (List.mem_map_of_mem Candidate.lex hx))
      (le_max_left _ _)

theorem min_bump_case (cs : List Candidate) (i : String) (n : Rat)
    (c : Candidate) (hc : c ∈ cs) (hcid : c.id = i)
    (hnd : (cs.map Candidate.id).Nodup) (hupn : c.lex ≤ n) :
    listMin (lexScores (bumpLex cs i n)) = listMin (lexScores cs)
      ∨ c.lex = listMin (lexScores cs) := by
  by_cases hE :
      listMin (lexScores (bumpLex cs i n)) = listMin (lexScores cs)
  · left; exact hE
  · right
    have hne : lexScores cs ≠ [] := by
      simp only [lexScores, ne_eq, List.map_eq_nil_iff]
      exact List.ne_nil_of_mem hc
    have hmem := listMin_mem (lexScores cs) hne
    rw [lexScores, List.mem_map] at hmem
    obtain ⟨x, hx, hxl⟩ := hmem
    by_cases hxi : x.id = i
    · have hxc : x = c :=
        List.inj_on_of_nodup_map hnd hx hc (hxi.trans hcid.symm)
      rw [← hxc]
      exact hxl
    · exfalso
      have hle := listMin_le_of_mem _ _ (lex_mem_bump_other cs i n x hx hxi)
      have hge := listMin_mono (forall₂_lex_bump cs i n c hc hcid hnd hupn)
      exact hE (le_antisymm (hxl ▸ hle) hge)

theorem lexNorm_bump_other (cs : List Candidate) (i : String) (n : Rat)
    (c : Candidate) (hc : c ∈ cs) (hcid : c.id = i)
    (hnd : (cs.map Candidate.id).Nodup) (hupn : c.lex ≤ n)
    (f : Candidate) (hf : f ∈ cs) (hfid : f.id ≠ i) :
    lexNorm (bumpLex cs i n) f ≤ lexNorm cs f := by
  have hF := forall₂_lex_bump cs i n c hc hcid hnd hupn
  exact normScore_anti _ _ _ _ _ (listMin_mono hF) (listMax_mono hF)
    (listMin_le_of_mem _ _ (lex_mem_bump_other cs i n f hf hfid))
    (le_listMax_of_mem _ _ (List.mem_map_of_mem Candidate.lex hf))

theorem lexNorm_bump_target (cs : List Candidate) (i : String) (n : Rat)
    (c : Candidate) (hc : c ∈ cs) (hcid : c.id = i)
    (hnd : (cs.map Candidate.id).Nodup) (hupn : c.lex ≤ n) :
    lexNorm cs c ≤ lexNorm (bumpLex cs i n) { c with lex := n } := by
  have hF := forall₂_lex_bump cs i n c hc hcid hnd hupn
  exact normScore_target _ _ _ _ _ _ hupn
    (listMin_mono hF) (listMax_mono hF)
    (listMin_le_of_mem _ _ (List.mem_map_of_mem Candidate.lex hc))
    (le_listMax_of_mem _ _ (List.mem_map_of_mem Candidate.lex hc))
    (listMin_le_of_mem _ _ (lex_mem_bump_self cs i n c hc hcid))
    (le_listMax_of_mem _ _ (lex_mem_bump_self cs i n c hc hcid))
    (listMax_bump_le cs i n (List.ne_nil_of_mem hc))
    (min_bump_case cs i n c hc hcid hnd hupn)

theorem semNorm_bumpLex (cs : List Candidate) (i : String) (n : Rat)
    (x : Candidate) : semNorm (bumpLex cs i n) x = semNorm cs x := by
  unfold semNorm
  rw [semScores_bumpLex]

theorem combined_bumpLex_other (wl ws : Rat) (hwl : 0 ≤ wl)
    (cs : List Candidate) (i : String) (n : Rat)
    (c : Candidate) (hc : c ∈ cs) (hcid : c.id = i)
    (hnd : (cs.map Candidate.id).Nodup) (hupn : c.lex ≤ n)
    (f : Candidate) (hf : f ∈ cs) (hfid : f.id ≠ i) :
    combinedScore wl ws (bumpLex cs i n) f
      ≤ combinedScore wl ws cs f := by
  unfold combinedScore
  rw [semNorm_bumpLex]
  exact add_le_add_right (mul_le_mul_of_nonneg_left
    (lexNorm_bump_other cs i n c hc hcid hnd hupn f hf hfid) hwl) _

theorem combined_bumpLex_target (wl ws : Rat) (hwl : 0 ≤ wl)
    (cs : List Candidate) (i : String) (n : Rat)
    (c : Candidate) (hc : c ∈ cs) (hcid : c.id = i)
    (hnd : (cs.map Candidate.id).Nodup) (hupn : c.lex ≤ n) :
    combinedScore wl ws cs c
      ≤ combinedScore wl ws (bumpLex cs i n) { c with lex := n } := by
  unfold combinedScore
  rw [semNorm_bumpLex]
  have hsem : semNorm cs { c with lex := n } = semNorm cs c := rfl
  rw [hsem]
  exact add_le_add_right (mul_le_mul_of_nonneg_left
    (lexNorm_bump_target cs i n c hc hcid hnd hupn) hwl) _

theorem beats_irrefl (wl ws : Rat) (cs : List Candidate) (x : Candidate) :
    beats wl ws cs x x = false := by
  simp [beats]

theorem rankPos_bumpLex_le (wl ws : Rat) (hwl : 0 ≤ wl) (hws : 0 ≤ ws)
    (cs : List Candidate) (c : Candidate) (hc : c ∈ cs)
    (hnd : (cs.map Candidate.id).Nodup) (n : Rat) (hupn : c.lex ≤ n) :
    rankPos wl ws (bumpLex cs c.id n) { c with lex := n }
      ≤ rankPos wl ws cs c := by
  unfold rankPos
  rw [bumpLex, List.countP_map]
  refine List.countP_mono_left ?_
  intro a ha hb
  simp only [Function.comp_apply] at hb
  by_cases haid : a.id = c.id
  · have haeq : a = c := List.inj_on_of_nodup_map hnd ha hc haid
    rw [haeq, if_pos rfl, ← bumpLex, beats_irrefl] at hb
    exact absurd hb Bool.false_ne_true
  · rw [if_neg haid, ← bumpLex] at hb
    have hSa := combined_bumpLex_other wl ws hwl cs c.id n c hc rfl hnd
      hupn a ha haid
    have hSc := combined_bumpLex_target wl ws hwl cs c.id n c hc rfl hnd
      hupn
    simp only [beats, Bool.or_eq_true, Bool.and_eq_true,
      decide_eq_true_eq] at hb ⊢
    rcases hb with hlt | hb
    · left
      linarith
    · have hce : combinedScore wl ws cs c ≤ combinedScore wl ws cs a := by
        linarith [hb.1.ge, hb.1.le]
      rcases lt_or_eq_of_le hce with hlt | heq2
      · left; exact hlt
      · right
        exact ⟨heq2.symm, hb.2⟩

theorem lexScores_swap (cs : List Candidate) :
    lexScores (cs.map swapCand) = semScores cs := by
  simp [lexScores, semScores, List.map_map, Function.comp, swapCand]

theorem semScores_swap (cs : List Candidate) :
    semScores (cs.map swapCand) = lexScores cs := by
  simp [lexScores, semScores, List.map_map, Function.comp, swapCand]

theorem combined_swap (wl ws : Rat) (cs : List Candidate) (x : Candidate) :
    combinedScore wl ws (cs.map swapCand) (swapCand x)
      = combinedScore ws wl cs x := by
  unfold combinedScore lexNorm semNorm
  rw [lexScores_swap, semScores_swap]
  exact add_comm _ _

theorem beats_swap (wl ws : Rat) (cs : List Candidate) (a b : Candidate) :
    beats wl ws (cs.map swapCand) (swapCand a) (swapCand b)
      = beats ws wl cs a b := by
  simp only [beats, combined_swap]
  rfl

theorem rankPos_swap (wl ws : Rat) (cs : List Candidate) (x : Candidate) :
    rankPos wl ws (cs.map swapCand) (swapCand x) = rankPos ws wl cs x := by
  unfold rankPos
  rw [List.countP_map]
  refine List.countP_congr ?_
  intro a ha
  simp only [Function.comp_apply]
  rw [beats_swap wl ws cs a x]

theorem bumpSem_eq_swap (cs : List Candidate) (i : String) (n : Rat) :
    bumpSem cs i n = (bumpLex (cs.map swapCand) i n).map swapCand := by
  simp only [bumpSem, bumpLex, List.map_map]
  refine List.map_congr_left ?_
  intro a _
  by_cases h : a.id = i <;> simp [Function.comp, swapCand, h]

theorem ids_map_swap (cs : List Candidate) :
    (cs.map swapCand).map Candidate.id = cs.map Candidate.id := by
  simp [List.map_map, Function.comp, swapCand]

theorem rankPos_bumpSem_le (wl ws : Rat) (hwl : 0 ≤ wl) (hws : 0 ≤ ws)
    (cs : List Candidate) (c : Candidate) (hc : c ∈ cs)
    (hnd : (cs.map Candidate.id).Nodup) (n : Rat) (hupn : c.sem ≤ n) :
    rankPos wl ws (bumpSem cs c.id n) { c with sem := n }
      ≤ rankPos wl ws cs c := by
  rw [bumpSem_eq_swap]
  have h1 : ({ c with sem := n } : Candidate)
      = swapCand { swapCand c with lex := n } := rfl
  rw [h1, rankPos_swap]
  have h2 : rankPos ws wl (bumpLex (cs.map swapCand) c.id n)
      { swapCand c with lex := n }
      ≤ rankPos ws wl (cs.map swapCand) (swapCand c) :=
    rankPos_bumpLex_le ws wl hws hwl (cs.map swapCand) (swapCand c)
      (List.mem_map_of_mem swapCand hc)
      (by rw [ids_map_swap]; exact hnd) n hupn
  exact le_trans h2 (le_of_eq (rankPos_swap ws wl cs c))

/-- **C5.** Hybrid fusion monotonicity: for a fixed candidate pool with
duplicate-free entity ids and nonnegative fusion weights, raising one
entity's lexical sub-score while its semantic sub-score stays fixed (or
vice versa) never pushes that entity to a worse rank position — the count
of candidates ranked strictly ahead of it never increases, with each
signal min–max-normalized within its own result set and combined by the
weighted sum. -/
theorem hybrid_fusion_monotone :
    (∀ (wl ws : Rat) (cs : List Candidate) (c : Candidate) (n : Rat),
      0 ≤ wl → 0 ≤ ws → c ∈ cs → (cs.map Candidate.id).Nodup →
      c.lex ≤ n →
      rankPos wl ws (bumpLex cs c.id n) { c with lex := n }
        ≤ rankPos wl ws cs c) ∧
    (∀ (wl ws : Rat) (cs : List Candidate) (c : Candidate) (n : Rat),
      0 ≤ wl → 0 ≤ ws → c ∈ cs → (cs.map Candidate.id).Nodup →
      c.sem ≤ n →
      rankPos wl ws (bumpSem cs c.id n) { c with sem := n }
        ≤ rankPos wl ws cs c) :=
  ⟨fun wl ws cs c n hwl hws hc hnd hupn =>
      rankPos_bumpLex_le wl ws hwl hws cs c hc hnd n hupn,
   fun wl ws cs c n hwl hws hc hnd hupn =>
      rankPos_bumpSem_le wl ws hwl hws cs c hc hnd n hupn⟩

/-- Witness for C5: raising the lexical sub-score of entity `"a"` from 0
to 2 in a two-candidate pool does not worsen its rank position. -/
theorem hybrid_fusion_monotone_witness :
    rankPos (1 / 2) (1 / 2)
        (bumpLex [⟨"a", 0, 0⟩, ⟨"b", 1, 1⟩] "a" 2) ⟨"a", 2, 0⟩
      ≤ rankPos (1 / 2) (1 / 2) [⟨"a", 0, 0⟩, ⟨"b", 1, 1⟩] ⟨"a", 0, 0⟩ :=
  hybrid_fusion_monotone.1 (1 / 2) (1 / 2) [⟨"a", 0, 0⟩, ⟨"b", 1, 1⟩]
    ⟨"a", 0, 0⟩ 2 (by norm_num) (by norm_num) (by decide) (by decide)
    (by norm_num)

/-- **C8.** Hybrid Retriever determinism: identical inputs give identical
fused output, the output is ordered by combined score with ties broken by
entity id, and it contains at most one entry per entity id. -/
theorem rank_deterministic :
    (∀ (wl ws : Rat) (cs cs' : List Candidate), cs = cs' →
      rank wl ws cs = rank wl ws cs') ∧
    (∀ (wl ws : Rat) (cs : List Candidate),
      (rank wl ws cs).Pairwise (fun a b => rankedBefore a b = true)) ∧
    (∀ (wl ws : Rat) (cs : List Candidate),
      ((rank wl ws cs).map ScoredCand.id).Nodup) :=
  ⟨fun _ _ _ _ h => by rw [h],
   fun _ _ _ => sortRanked_sorted _,
   fun wl ws cs => rank_ids_nodup wl ws cs⟩

/-- Witness for C8: two invocations of `rank` on the same two-candidate
pool with equal weights produce the same output list. -/
theorem rank_deterministic_witness :
    rank 1 1 [⟨"a", 1, 0⟩, ⟨"b", 0, 1⟩]
      = rank 1 1 [⟨"a", 1, 0⟩, ⟨"b", 0, 1⟩] :=
  rank_deterministic.1 1 1 [⟨"a", 1, 0⟩, ⟨"b", 0, 1⟩]
    [⟨"a", 1, 0⟩, ⟨"b", 0, 1⟩] rfl

/-- **C6.** Export/import round trip: importing the exported document
reconstructs the same node ids, the same edge ids, and identical node and
edge counts. -/
theorem export_import_roundtrip (g : GraphStore) (dim : Option Nat) :
    entityIds (importGraph (exportGraph g dim)) = entityIds g ∧
    relationshipIds (importGraph (exportGraph g dim)) = relationshipIds g ∧
    (importGraph (exportGraph g dim)).entities.length
      = g.entities.length ∧
    (importGraph (exportGraph g dim)).relationships.length
      = g.relationships.length := by
  refine ⟨?_, ?_, ?_, ?_⟩ <;>
    simp [importGraph, exportGraph, entityIds, relationshipIds,
      List.map_map, Function.comp]

/-- **C9.** `logout(session_id)` leaves the `sessions` dictionary unchanged
(in particular a session added by `authenticate` survives `logout`), and its
return value is exactly the result of `session_store.delete(session_id)`. -/
theorem logout_frame (m : AuthManager) (sid : String) (u : UserRec)
    (asid lsid : String) :
    (m.logout sid).1.sessions = m.sessions ∧
    (m.logout sid).2 = (m.session_store.delete sid).2 ∧
    (((m.authenticate (some u) asid).1.logout lsid).1.sessions
      = m.sessions ++ [(asid, u)]) := by
  refine ⟨rfl, rfl, rfl⟩

end Coretx
